import Mathlib

/-!
Verification of the Agentic-RAG-Chatbot core.

Shallow embedding of the repository's core:
* `src/ingestion_agent.py` — `chunk_text` (the segmenter);
* `src/retrieval_agent.py` — the FAISS-backed vector store
  (`initialize_vector_store`, `save_vector_store`, `store_embeddings`,
  `retrieve_chunks`, `get_vector_store_stats`, `clear_vector_store`);
* `src/mcp.py` — the in-memory message bus
  (`send_mcp_message`, `receive_mcp_message`).

Python strings are modelled as `List Char`, Python ints as `Int`/`Nat`,
float32 vectors as `List ℚ`.  The single floating-point computation that
influences control flow (`chunk_size * 0.7` in `chunk_text`) is modelled
exactly: see `natFl` below, which reproduces IEEE-754 binary64
round-to-nearest-even for the product of an integer with the double
nearest to 0.7.
-/

namespace RAG

/-! ## Segmenter: `ingestion_agent.chunk_text` -/

/-- The IEEE-754 binary64 value nearest to 0.7 is `d07 / 2^53`. -/
def d07 : Nat := 6305039478318694

/-- Fuelled base-2 logarithm (`lg2 fuel n = ⌊log2 n⌋` whenever
`fuel ≥ n`), structurally recursive so that it reduces in the kernel. -/
def lg2 : Nat → Nat → Nat
  | 0, _ => 0
  | fuel + 1, n => if n < 2 then 0 else lg2 fuel (n / 2) + 1

/-- Scaled float product: `natFl cs` is `2^53` times the binary64 product `float(cs) * 0.7`
(round to nearest, ties to even), for `cs < 2^53`.  The integer `cs`
converts to binary64 exactly; the product `cs * d07 / 2^53` is rounded
to 53 significant bits. -/
def natFl (cs : Nat) : Nat :=
  let q := cs * d07
  if q < 2 ^ 53 then q
  else
    let s := lg2 q q - 52
    let m := q / 2 ^ s
    let r := q % 2 ^ s
    let m' := if 2 * r > 2 ^ s ∨ (2 * r = 2 ^ s ∧ m % 2 = 1) then m + 1 else m
    m' * 2 ^ s

/-- For an integer `bp`, Python's `bp > cs * 0.7` holds iff
`bp ≥ floor(float(cs)*0.7) + 1`; `thr cs` is that least accepted value. -/
def thr (cs : Nat) : Int := (natFl cs / 2 ^ 53 : Nat) + 1

/-- Python slice `l[i:j]` (supports negative indices). -/
def pySlice (l : List Char) (i j : Int) : List Char :=
  let n : Int := l.length
  let i' := if i < 0 then max 0 (n + i) else min i n
  let j' := if j < 0 then max 0 (n + j) else min j n
  (l.take j'.toNat).drop i'.toNat

/-- The ASCII whitespace characters removed by Python's `str.strip()`. -/
def isPyWs (c : Char) : Bool :=
  c == ' ' || c == '\t' || c == '\n' || c == '\r' || c == '\x0b' || c == '\x0c'

/-- Python `str.strip()`. -/
def pyStrip (l : List Char) : List Char :=
  ((l.dropWhile isPyWs).reverse.dropWhile isPyWs).reverse

/-- Python `str.rfind(c)` for a single character: index of the last
occurrence, `-1` if absent. -/
def rfindL (c : Char) : List Char → Int
  | [] => -1
  | a :: t =>
    let r := rfindL c t
    if 0 ≤ r then r + 1 else if a == c then 0 else -1

/-- One iteration of the `while start < text_length` loop body of
`chunk_text`: takes the window `text[start:start+chunk_size]`; if the
window does not reach the end of the text, computes
`max(chunk.rfind('.'), chunk.rfind('\n'), chunk.rfind(' '))` and, when
that break point exceeds the float `chunk_size * 0.7`, shortens the
chunk to `chunk[:break_point+1]` and sets `end = start+break_point+1`.
Returns the stripped emitted chunk and the next `start = end - overlap`. -/
def chunkStep (text : List Char) (cs ov : Nat) (start : Int) : List Char × Int :=
  let wend : Int := start + cs
  let w := pySlice text start wend
  if wend < (text.length : Int) then
    let bp := max (rfindL '.' w) (max (rfindL '\n' w) (rfindL ' ' w))
    if thr cs ≤ bp then
      (pyStrip (pySlice w 0 (bp + 1)), start + bp + 1 - ov)
    else
      (pyStrip w, wend - ov)
  else
    (pyStrip w, wend - ov)

/-- The `while start < text_length` loop of `chunk_text`, fuelled:
`none` means the given number of iterations did not suffice. -/
def chunkLoop (text : List Char) (cs ov : Nat) : Nat → Int → List (List Char) → Option (List (List Char))
  | 0, _, _ => none
  | n + 1, start, acc =>
    if start < (text.length : Int) then
      let p := chunkStep text cs ov start
      chunkLoop text cs ov n p.2 (acc ++ [p.1])
    else
      some acc

/-- Embeds `ingestion_agent.chunk_text`.  Empty text returns `[]`; otherwise the
loop is run with fuel `len(text) + 1`, which suffices whenever every
iteration advances `start` by at least one character. -/
def chunk_text (text : List Char) (cs ov : Nat) : Option (List (List Char)) :=
  if text.isEmpty then some []
  else chunkLoop text cs ov (text.length + 1) 0 []

/-- Termination of `chunk_text` on the given input: some finite number of
loop iterations produces a result. -/
def chunkTerm (text : List Char) (cs ov : Nat) : Prop :=
  ∃ fuel res, chunkLoop text cs ov fuel 0 [] = some res

/-- Position `i` of `w` holds a break character of `chunk_text`
(`'.'`, newline or space). -/
def isBnd (w : List Char) (i : Nat) : Bool :=
  match w.get? i with
  | some c => c == '.' || c == '\n' || c == ' '
  | none => false

/-- Spec-worded variant of `chunkStep`, used only to compare the claimed
behaviour with the code: the break point is chosen by boundary *kind*
priority (last sentence terminator if one occurs in the window, else last
newline, else last space) and accepted exactly when it lies at or past
70% of `chunk_size` (`10 * bp ≥ 7 * cs`). -/
def claimChunkStep (text : List Char) (cs ov : Nat) (start : Int) : List Char × Int :=
  let wend : Int := start + cs
  let w := pySlice text start wend
  if wend < (text.length : Int) then
    let bp :=
      if 0 ≤ rfindL '.' w then rfindL '.' w
      else if 0 ≤ rfindL '\n' w then rfindL '\n' w
      else rfindL ' ' w
    if 0 ≤ bp ∧ 10 * bp ≥ 7 * cs then
      (pyStrip (pySlice w 0 (bp + 1)), start + bp + 1 - ov)
    else
      (pyStrip w, wend - ov)
  else
    (pyStrip w, wend - ov)

/-! ## Vector store: `retrieval_agent.py`

The module-level globals `vector_index`, `stored_chunks`,
`document_mapping` become the fields of `VState`; the two files
`faiss_index.bin` and `embeddings.pkl` become the fields of `Disk`
(`none` = absent or unreadable).  Embedding vectors are `List ℚ`. -/

/-- A FAISS `IndexFlatL2`: its fixed dimension and the inserted vectors
in insertion order (`ntotal = vecs.length`). -/
structure FaissIndex where
  dim : Nat
  vecs : List (List ℚ)
deriving DecidableEq

/-- The in-memory vector store: the FAISS index plus the two parallel
metadata lists `stored_chunks` and `document_mapping`. -/
structure VState where
  index : FaissIndex
  stored_chunks : List String
  document_mapping : List String
deriving DecidableEq

/-- The two persisted files: the serialized index (`faiss_index.bin`)
and the pickled metadata `{chunks, documents}` (`embeddings.pkl`).
`none` means the file is missing or unreadable. -/
structure Disk where
  indexFile : Option FaissIndex
  embFile : Option (List String × List String)
deriving DecidableEq

/-- The fresh index created by `initialize_vector_store`:
`faiss.IndexFlatL2(384)`. -/
def freshIndex : FaissIndex := ⟨384, []⟩

/-- Embeds `retrieval_agent.initialize_vector_store`: if both files exist and
read back successfully, the store is loaded from them *as read* (the
code performs no consistency check on the loaded data); otherwise a new
empty 384-dimensional store is created. -/
def init_vector_store (d : Disk) : VState :=
  match d.indexFile, d.embFile with
  | some ix, some m => ⟨ix, m.1, m.2⟩
  | _, _ => ⟨freshIndex, [], []⟩

/-- A single file write performed by `save_vector_store`: the code
writes each target file directly in place. -/
inductive DiskOp where
  | writeIndex (ix : FaissIndex)
  | writeEmb (m : List String × List String)
deriving DecidableEq

/-- Effect of one write on the disk. -/
def applyOp (d : Disk) : DiskOp → Disk
  | .writeIndex ix => ⟨some ix, d.embFile⟩
  | .writeEmb m => ⟨d.indexFile, some m⟩

/-- The sequence of writes performed by
`retrieval_agent.save_vector_store`: `faiss.write_index(...)` to the
index file, then `pickle.dump({'chunks': ..., 'documents': ...})` to the
metadata file — in that order, with no temporary file and no rename. -/
def saveOps (st : VState) : List DiskOp :=
  [.writeIndex st.index, .writeEmb (st.stored_chunks, st.document_mapping)]

/-- Embeds `retrieval_agent.save_vector_store`: the disk after all of
`saveOps` ran to completion. -/
def save_vector_store (st : VState) (d : Disk) : Disk :=
  (saveOps st).foldl applyOp d

/-- A disk holds a structurally consistent pair when, with both files
present, the metadata lengths agree with the index's vector count. -/
def diskConsistent (d : Disk) : Bool :=
  match d.indexFile, d.embFile with
  | some ix, some m => m.1.length == ix.vecs.length && m.2.length == ix.vecs.length
  | _, _ => true

/-- Embeds `retrieval_agent.store_embeddings`: for a non-empty chunk list,
embeds every chunk (`create_embeddings` yields one vector per text, in
order), adds the batch to the FAISS index — which raises, leaving the
store untouched, when a vector's length differs from the index
dimension — then appends each chunk to `stored_chunks` and the document
name to `document_mapping`, and saves to disk.  Returns the new
in-memory state, the new disk, and the `bool` result. -/
def store_embeddings (embed : String → List ℚ) (chunks : List String)
    (document_name : String) (st : VState) (d : Disk) : (VState × Disk) × Bool :=
  if chunks.isEmpty then ((st, d), false)
  else
    let embs := chunks.map embed
    if embs.all (fun v => v.length == st.index.dim) then
      let st' : VState :=
        ⟨⟨st.index.dim, st.index.vecs ++ embs⟩,
          st.stored_chunks ++ chunks,
          st.document_mapping ++ chunks.map (fun _ => document_name)⟩
      ((st', save_vector_store st' d), true)
    else ((st, d), false)

/-- Embeds `retrieval_agent.clear_vector_store`: fresh empty 384-dimensional
index, empty metadata, both files removed. -/
def clear_vector_store (_st : VState) (_d : Disk) : VState × Disk :=
  (⟨freshIndex, [], []⟩, ⟨none, none⟩)

/-- The record returned by `retrieval_agent.get_vector_store_stats`. -/
structure Stats where
  total_chunks : Nat
  total_documents : Nat
  index_size : Nat
deriving DecidableEq

/-- Embeds `retrieval_agent.get_vector_store_stats`. -/
def get_vector_store_stats (st : VState) : Stats :=
  ⟨st.stored_chunks.length, st.document_mapping.dedup.length, st.index.vecs.length⟩

/-- Squared Euclidean distance on the common prefix of two vectors. -/
def sqDist (a b : List ℚ) : ℚ :=
  ((a.zip b).map (fun p => (p.1 - p.2) ^ 2)).sum

/-- Search order on stored-vector indices: ascending squared L2
distance to the query, ties broken by insertion order. -/
def searchLe (vecs : List (List ℚ)) (q : List ℚ) (i j : Nat) : Prop :=
  sqDist q (vecs.getD i []) < sqDist q (vecs.getD j []) ∨
    (sqDist q (vecs.getD i []) = sqDist q (vecs.getD j []) ∧ i ≤ j)

instance (vecs : List (List ℚ)) (q : List ℚ) : DecidableRel (searchLe vecs q) :=
  fun _ _ => instDecidableOr

/-- Modelled from the spec: `faiss.IndexFlatL2.search` is not part of
this repository; per the spec it returns the `min(k, ntotal)` stored
ids ordered by ascending squared Euclidean distance to the query, ties
broken by insertion order (earlier-inserted first). -/
def faissSearch (vecs : List (List ℚ)) (q : List ℚ) (k : Nat) : List Nat :=
  ((List.range vecs.length).insertionSort (searchLe vecs q)).take k

/-- Embeds `retrieval_agent.retrieve_chunks`: empty store returns `[]`
immediately; otherwise the index is searched with
`min(top_k, len(stored_chunks))` and each returned id passing the
`idx < len(stored_chunks)` check contributes a
`(chunk, document_name)` pair. -/
def retrieve_chunks (st : VState) (q : List ℚ) (top_k : Nat) : List (String × String) :=
  if st.stored_chunks.length = 0 then []
  else
    (faissSearch st.index.vecs q (min top_k st.stored_chunks.length)).filterMap
      (fun idx =>
        if idx < st.stored_chunks.length then
          some (st.stored_chunks.getD idx "", st.document_mapping.getD idx "")
        else none)

/-- The parallel-array invariant of the vector store. -/
def Inv (st : VState) : Prop :=
  st.stored_chunks.length = st.document_mapping.length ∧
    st.stored_chunks.length = st.index.vecs.length

instance (st : VState) : Decidable (Inv st) := instDecidableAnd

/-- States of the vector store reachable through the module's own
operations, for a fixed embedding model `embed`: the fresh store, any
result of `store_embeddings` or `clear_vector_store`, and any reload
(`initialize_vector_store`) of a disk that `save_vector_store` wrote
from a reachable state.  `retrieve_chunks` and `get_vector_store_stats`
do not modify the store. -/
inductive Reachable (embed : String → List ℚ) : VState → Prop where
  | fresh : Reachable embed ⟨freshIndex, [], []⟩
  | store (st : VState) (d : Disk) (chunks : List String) (doc : String) :
      Reachable embed st →
      Reachable embed (store_embeddings embed chunks doc st d).1.1
  | clear (st : VState) (d : Disk) :
      Reachable embed st → Reachable embed (clear_vector_store st d).1
  | reload (st : VState) (d : Disk) :
      Reachable embed st →
      Reachable embed (init_vector_store (save_vector_store st d))

/-! ## Message bus: `mcp.py` -/

/-- An MCP message with its three required fields; the payload is
opaque to the bus. -/
structure Envelope (P : Type) where
  sender : String
  receiver : String
  payload : P
deriving DecidableEq

/-- Embeds `mcp.message_queues`: one FIFO list per receiver name (a
`defaultdict(list)`, so every name has a queue, empty by default). -/
def Bus (P : Type) := String → List (Envelope P)

/-- The initial empty bus. -/
def emptyBus (P : Type) : Bus P := fun _ => []

/-- Embeds `mcp.send_mcp_message`: the message (all three required fields are
present by construction, so validation succeeds) is appended to the
tail of its receiver's queue. -/
def send_mcp_message {P : Type} (e : Envelope P) (b : Bus P) : Bus P :=
  fun r => if r = e.receiver then b r ++ [e] else b r

/-- Embeds `mcp.receive_mcp_message`: pops and returns the head of the named
queue (`list.pop(0)`), or `none` if the queue is absent or empty. -/
def receive_mcp_message {P : Type} (name : String) (b : Bus P) :
    Option (Envelope P) × Bus P :=
  match b name with
  | [] => (none, b)
  | m :: rest => (some m, fun r => if r = name then rest else b r)


/-! ## Theorems -/

/-- If one loop iteration of `chunk_text` maps `start` back to itself
while `start` is still inside the text, the loop never terminates. -/
theorem chunkLoop_stall (text : List Char) (cs ov : Nat) (start : Int)
    (hfix : (chunkStep text cs ov start).2 = start)
    (hlt : start < (text.length : Int)) :
    ∀ (fuel : Nat) (acc : List (List Char)),
      chunkLoop text cs ov fuel start acc = none := by
  intro fuel
  induction fuel with
  | zero => intro acc; rfl
  | succ n ih =>
    intro acc
    rw [chunkLoop, if_pos hlt]
    show chunkLoop text cs ov n (chunkStep text cs ov start).2
        (acc ++ [(chunkStep text cs ov start).1]) = none
    rw [hfix]
    exact ih _

/-- C8: `chunk_text` performs no validation of the configuration; with
`overlap = chunk_size = 2` on `"abc"` the loop re-enters with `start = 0`
forever, so no amount of fuel makes it terminate.  The claimed
`InvalidConfiguration` failure does not exist in the code. -/
theorem chunk_text_overlap_ge_size_loops_forever : ¬ chunkTerm "abc".toList 2 2 := by
  rintro ⟨fuel, res, h⟩
  rw [chunkLoop_stall "abc".toList 2 2 0 (by decide) (by decide)] at h
  exact Option.noConfusion h

/-- C2 counterexample: a valid configuration (`chunk_size = 10`,
`overlap = 9`, so `0 ≤ overlap < chunk_size`) on which `chunk_text`
never terminates: the window `"aaaaaaaa.a"` breaks at the period
(index 8 > 7.0 = 10*0.7), so `end = 9` and
`start = end - overlap = 0` again. -/
theorem chunk_text_valid_overlap_loops_forever :
    ¬ chunkTerm "aaaaaaaa.aaaaaaaaaaaa".toList 10 9 := by
  rintro ⟨fuel, res, h⟩
  rw [chunkLoop_stall "aaaaaaaa.aaaaaaaaaaaa".toList 10 9 0 (by decide) (by decide)] at h
  exact Option.noConfusion h

/-- C3 counterexample: a persisted pair whose metadata length (2)
disagrees with the index's vector count (1) is loaded as-is by
`initialize_vector_store` — it is not rejected in favour of a fresh
empty index. -/
theorem init_vector_store_loads_mismatched_pair :
    (init_vector_store ⟨some ⟨384, [[1]]⟩, some (["a", "b"], ["x", "y"])⟩).stored_chunks.length = 2 ∧
    (init_vector_store ⟨some ⟨384, [[1]]⟩, some (["a", "b"], ["x", "y"])⟩).index.vecs.length = 1 ∧
    init_vector_store ⟨some ⟨384, [[1]]⟩, some (["a", "b"], ["x", "y"])⟩ ≠ ⟨freshIndex, [], []⟩ := by
  refine ⟨rfl, rfl, ?_⟩
  decide

/-- C3 (amended): `initialize_vector_store` loads the snapshot whenever
both companion files exist and read back, with no structural
consistency check whatsoever; the fresh empty 384-dimensional index is
used exactly when a file is missing or unreadable. -/
theorem init_vector_store_no_consistency_check (d : Disk) :
    (∀ ix m, d = ⟨some ix, some m⟩ → init_vector_store d = ⟨ix, m.1, m.2⟩) ∧
    (d.indexFile = none ∨ d.embFile = none → init_vector_store d = ⟨freshIndex, [], []⟩) := by
  obtain ⟨i, e⟩ := d
  constructor
  · rintro ix m ⟨rfl, rfl⟩
    rfl
  · rintro (rfl | rfl)
    · cases e <;> rfl
    · cases i <;> rfl

theorem init_vector_store_no_consistency_check_witness :
    init_vector_store ⟨some ⟨384, [[1]]⟩, some (["a", "b"], ["x", "y"])⟩ =
      ⟨⟨384, [[1]]⟩, ["a", "b"], ["x", "y"]⟩ ∧
    init_vector_store ⟨none, none⟩ = ⟨freshIndex, [], []⟩ :=
  ⟨(init_vector_store_no_consistency_check _).1 _ (["a", "b"], ["x", "y"]) rfl,
   (init_vector_store_no_consistency_check ⟨none, none⟩).2 (Or.inl rfl)⟩

/-- C4 counterexample: starting from a consistent disk (one vector, one
chunk) and an in-memory store holding two vectors and two chunks, a
crash after the first of `save_vector_store`'s two in-place writes
leaves the new two-vector index next to the old one-chunk metadata — a
structurally inconsistent pair. -/
theorem save_vector_store_crash_inconsistent :
    diskConsistent ⟨some ⟨384, [[1]]⟩, some (["a"], ["x"])⟩ = true ∧
    Inv ⟨⟨384, [[1], [2]]⟩, ["a", "b"], ["x", "x"]⟩ ∧
    ((saveOps ⟨⟨384, [[1], [2]]⟩, ["a", "b"], ["x", "x"]⟩).take 1).foldl applyOp
        ⟨some ⟨384, [[1]]⟩, some (["a"], ["x"])⟩ =
      ⟨some ⟨384, [[1], [2]]⟩, some (["a"], ["x"])⟩ ∧
    diskConsistent (((saveOps ⟨⟨384, [[1], [2]]⟩, ["a", "b"], ["x", "x"]⟩).take 1).foldl applyOp
        ⟨some ⟨384, [[1]]⟩, some (["a"], ["x"])⟩) = false := by
  refine ⟨rfl, ⟨rfl, rfl⟩, rfl, rfl⟩

/-- C4 (amended): `save_vector_store` writes the index file and then the
metadata file directly in place — no temporary file, no atomic rename.
A completed save leaves a consistent pair whenever the in-memory store
satisfies the parallel-array invariant, but between the two writes the
disk pairs the new index with the old metadata. -/
theorem save_vector_store_writes_in_place (st : VState) (d : Disk) :
    save_vector_store st d =
      ⟨some st.index, some (st.stored_chunks, st.document_mapping)⟩ ∧
    ((saveOps st).take 1).foldl applyOp d = ⟨some st.index, d.embFile⟩ ∧
    (Inv st → diskConsistent (save_vector_store st d) = true) := by
  refine ⟨rfl, rfl, ?_⟩
  rintro ⟨h1, h2⟩
  simp only [save_vector_store, saveOps, List.foldl, applyOp, diskConsistent]
  rw [← h1, ← h2]
  simp

theorem save_vector_store_writes_in_place_witness :
    save_vector_store ⟨⟨384, [[1]]⟩, ["a"], ["x"]⟩ ⟨none, none⟩ =
      ⟨some ⟨384, [[1]]⟩, some (["a"], ["x"])⟩ ∧
    ((saveOps (⟨⟨384, [[1]]⟩, ["a"], ["x"]⟩ : VState)).take 1).foldl applyOp ⟨none, none⟩ =
      ⟨some ⟨384, [[1]]⟩, none⟩ ∧
    diskConsistent (save_vector_store ⟨⟨384, [[1]]⟩, ["a"], ["x"]⟩ ⟨none, none⟩) = true :=
  ⟨(save_vector_store_writes_in_place ⟨⟨384, [[1]]⟩, ["a"], ["x"]⟩ ⟨none, none⟩).1,
   (save_vector_store_writes_in_place ⟨⟨384, [[1]]⟩, ["a"], ["x"]⟩ ⟨none, none⟩).2.1,
   (save_vector_store_writes_in_place ⟨⟨384, [[1]]⟩, ["a"], ["x"]⟩ ⟨none, none⟩).2.2 ⟨rfl, rfl⟩⟩

/-- C9 counterexample: on a store holding one chunk, `retrieve_chunks`
with `top_k = 0` returns the empty list through its normal search path
— indistinguishable from the empty-store outcome and distinct from any
failure; the same store with `top_k = 1` produces a result, showing the
store is searchable.  No `InvalidConfiguration` rejection exists. -/
theorem retrieve_chunks_k0_no_rejection :
    retrieve_chunks ⟨⟨1, [[1]]⟩, ["a"], ["x"]⟩ [1] 0 = [] ∧
    (⟨⟨1, [[1]]⟩, ["a"], ["x"]⟩ : VState).stored_chunks.length = 1 ∧
    retrieve_chunks ⟨⟨1, [[1]]⟩, ["a"], ["x"]⟩ [1] 1 = [("a", "x")] := by
  refine ⟨?_, rfl, ?_⟩ <;> decide

/-- C9 (amended): `retrieve_chunks` performs no validation of `top_k`;
called with `k = 0` it returns the empty result list (`min(0, n) = 0`
ids are requested from the index), not an error. -/
theorem retrieve_chunks_k0_returns_empty (st : VState) (q : List ℚ) :
    retrieve_chunks st q 0 = [] := by
  unfold retrieve_chunks
  split
  · rfl
  · simp [faissSearch]

/-- Whenever `overlap < chunk_size` and `overlap` is below the
break-acceptance threshold, each loop iteration of `chunk_text`
advances `start` by at least one character. -/
theorem chunkStep_progress (text : List Char) (cs ov : Nat) (start : Int)
    (hov : ov < cs) (hthr : (ov : Int) < thr cs) :
    start + 1 ≤ (chunkStep text cs ov start).2 := by
  unfold chunkStep
  simp only [apply_ite Prod.snd]
  split
  · split
    · rename_i hbp
      omega
    · omega
  · omega

/-- With `overlap < chunk_size` and `overlap` below the acceptance
threshold, fuel `n + 1` suffices for the `chunk_text` loop whenever
`n` is at least the remaining text length; the loop then extends the
accumulator, by at least one chunk when it starts inside the text. -/
theorem chunkLoop_terminates (text : List Char) (cs ov : Nat)
    (hov : ov < cs) (hthr : (ov : Int) < thr cs) :
    ∀ (n : Nat) (start : Int) (acc : List (List Char)),
      0 ≤ start → (text.length : Int) - start ≤ n →
      ∃ res, chunkLoop text cs ov (n + 1) start acc = some (acc ++ res) ∧
        (start < (text.length : Int) → res ≠ []) := by
  intro n
  induction n with
  | zero =>
    intro start acc h0 hn
    have hge : ¬ start < (text.length : Int) := by omega
    exact ⟨[], by rw [chunkLoop, if_neg hge, List.append_nil], fun h => absurd h hge⟩
  | succ m ih =>
    intro start acc h0 hn
    by_cases hlt : start < (text.length : Int)
    · have hp := chunkStep_progress text cs ov start hov hthr
      obtain ⟨res, hres, -⟩ :=
        ih (chunkStep text cs ov start).2 (acc ++ [(chunkStep text cs ov start).1])
          (by omega) (by omega)
      refine ⟨(chunkStep text cs ov start).1 :: res, ?_, by simp⟩
      rw [chunkLoop, if_pos hlt]
      show chunkLoop text cs ov (m + 1) (chunkStep text cs ov start).2
          (acc ++ [(chunkStep text cs ov start).1]) = some (acc ++ (chunkStep text cs ov start).1 :: res)
      rw [hres]
      simp
    · exact ⟨[], by rw [chunkLoop, if_neg hlt, List.append_nil], fun h => absurd h hlt⟩

/-- C2 (amended): for non-empty text and `0 ≤ overlap < chunk_size`,
`chunk_text` terminates with at least one chunk provided `overlap` is
also below the break-acceptance threshold `⌊chunk_size * 0.7⌋ + 1` (the
float comparison the code uses; e.g. `overlap ≤ 350` for the default
`chunk_size = 500`).  Without that extra bound the loop can stall — see
the counterexample. -/
theorem chunk_text_terminates (text : List Char) (cs ov : Nat)
    (hne : text ≠ []) (_hcs : 0 < cs) (hov : ov < cs) (hthr : (ov : Int) < thr cs) :
    ∃ res, chunk_text text cs ov = some res ∧ res ≠ [] := by
  have hlen : 0 < text.length := List.length_pos.mpr hne
  obtain ⟨res, h1, h2⟩ :=
    chunkLoop_terminates text cs ov hov hthr text.length 0 [] le_rfl (by omega)
  refine ⟨res, ?_, h2 (by exact_mod_cast hlen)⟩
  rw [chunk_text, if_neg (by simp [List.isEmpty_iff, hne])]
  simpa using h1

theorem chunk_text_terminates_witness :
    ∃ res, chunk_text "hello world".toList 500 50 = some res ∧ res ≠ [] :=
  chunk_text_terminates "hello world".toList 500 50 (by decide) (by decide) (by decide)
    (by decide)

/-- Counting chunks of the short-text case: `j < ⌈len/d⌉ ↔ j*d < len`. -/
theorem lt_ceil_div_iff {d j len : Nat} (hd : 0 < d) :
    j < (len + d - 1) / d ↔ j * d < len := by
  rw [Nat.lt_iff_add_one_le, Nat.le_div_iff_mul_le hd, add_one_mul]
  omega

/-- Python slice `text[s:e]` is plain `drop s` when `e` reaches past
the end of the text. -/
theorem pySlice_drop (text : List Char) (s : Nat) (e : Int)
    (hs : s ≤ text.length) (he : (text.length : Int) ≤ e) :
    pySlice text s e = text.drop s := by
  have h1 : ¬ (s : Int) < 0 := by omega
  have h2 : ¬ e < 0 := by omega
  have h3 : min (s : Int) (text.length : Int) = (s : Int) := by omega
  have h4 : min e (text.length : Int) = (text.length : Int) := by omega
  simp only [pySlice, if_neg h1, if_neg h2, h3, h4, Int.toNat_natCast, List.take_length]

/-- The `chunk_text` loop on a text no longer than the window: every
iteration keeps the full window (which reaches the text end), so from
`start = j*d` (`d = chunk_size - overlap`) it emits exactly the
stripped suffixes `text[j*d:], text[(j+1)*d:], ...`. -/
theorem chunkLoop_short (text : List Char) (cs ov : Nat)
    (hlen : text.length ≤ cs) (hov : ov < cs) :
    ∀ (n j : Nat) (acc : List (List Char)),
      (text.length + (cs - ov) - 1) / (cs - ov) ≤ j + n →
      chunkLoop text cs ov (n + 1) ((j * (cs - ov) : Nat) : Int) acc =
        some (acc ++ (List.range ((text.length + (cs - ov) - 1) / (cs - ov) - j)).map
          (fun i => pyStrip (text.drop ((j + i) * (cs - ov))))) := by
  have hd : 0 < cs - ov := by omega
  intro n
  induction n with
  | zero =>
    intro j acc hK
    have hj : ¬ j * (cs - ov) < text.length := by
      intro h
      have := (lt_ceil_div_iff hd).mpr h
      omega
    have hj' : ¬ ((j * (cs - ov) : Nat) : Int) < (text.length : Int) := by exact_mod_cast hj
    rw [chunkLoop, if_neg hj']
    have : (text.length + (cs - ov) - 1) / (cs - ov) - j = 0 := by omega
    rw [this]
    simp
  | succ m ih =>
    intro j acc hK
    by_cases hj : j < (text.length + (cs - ov) - 1) / (cs - ov)
    · have hjd : j * (cs - ov) < text.length := (lt_ceil_div_iff hd).mp hj
      have hlt : ((j * (cs - ov) : Nat) : Int) < (text.length : Int) := by exact_mod_cast hjd
      rw [chunkLoop, if_pos hlt]
      have hstep : chunkStep text cs ov ((j * (cs - ov) : Nat) : Int) =
          (pyStrip (text.drop (j * (cs - ov))), (((j + 1) * (cs - ov) : Nat) : Int)) := by
        unfold chunkStep
        have hwend : ¬ ((j * (cs - ov) : Nat) : Int) + (cs : Nat) < (text.length : Int) := by
          push_cast
          have : text.length ≤ j * (cs - ov) + cs := by omega
          omega
        rw [if_neg hwend]
        have hslice : pySlice text ((j * (cs - ov) : Nat) : Int)
            (((j * (cs - ov) : Nat) : Int) + (cs : Nat)) = text.drop (j * (cs - ov)) := by
          rw [show (((j * (cs - ov) : Nat) : Int) + (cs : Nat)) = ((j * (cs - ov) + cs : Nat) : Int) by push_cast; ring]
          exact pySlice_drop text (j * (cs - ov)) _ (by omega) (by exact_mod_cast (by omega : text.length ≤ j * (cs - ov) + cs))
        rw [hslice]
        congr 1
        have hmul : (j + 1) * (cs - ov) = j * (cs - ov) + (cs - ov) := by ring
        omega
      show chunkLoop text cs ov (m + 1) (chunkStep text cs ov ((j * (cs - ov) : Nat) : Int)).2
          (acc ++ [(chunkStep text cs ov ((j * (cs - ov) : Nat) : Int)).1]) = _
      rw [hstep]
      rw [ih (j + 1) (acc ++ [pyStrip (text.drop (j * (cs - ov)))]) (by omega)]
      congr 1
      rw [List.append_assoc]
      congr 1
      have hKj : (text.length + (cs - ov) - 1) / (cs - ov) - j =
          ((text.length + (cs - ov) - 1) / (cs - ov) - (j + 1)) + 1 := by omega
      rw [hKj, List.range_succ_eq_map, List.map_cons, List.map_map]
      rw [List.singleton_append, Nat.add_zero]
      congr 1
      apply List.map_congr_left
      intro i _
      have h5 : j + 1 + i = j + (i + 1) := by omega
      simp only [Function.comp, Nat.succ_eq_add_one, h5]
    · have h0 : (text.length + (cs - ov) - 1) / (cs - ov) - j = 0 := by omega
      have hj2 : ¬ j * (cs - ov) < text.length := by
        intro h
        exact hj ((lt_ceil_div_iff hd).mpr h)
      have hj' : ¬ ((j * (cs - ov) : Nat) : Int) < (text.length : Int) := by exact_mod_cast hj2
      rw [chunkLoop, if_neg hj', h0]
      simp

/-- C10: on non-empty text that fits in a single window
(`len(text) ≤ chunk_size`, `0 ≤ overlap < chunk_size`), `chunk_text`
returns the stripped suffixes `text[i*(chunk_size-overlap):]` for every
`i` with `i*(chunk_size-overlap) < len(text)`: the first chunk is the
whole trimmed text, and whenever `chunk_size - overlap < len(text)`
there are additional chunks duplicating its tail. -/
theorem chunk_text_short_text (text : List Char) (cs ov : Nat)
    (hne : text ≠ []) (hlen : text.length ≤ cs) (hov : ov < cs) :
    chunk_text text cs ov =
      some ((List.range ((text.length + (cs - ov) - 1) / (cs - ov))).map
        (fun i => pyStrip (text.drop (i * (cs - ov))))) ∧
    1 ≤ (text.length + (cs - ov) - 1) / (cs - ov) ∧
    (cs - ov < text.length → 2 ≤ (text.length + (cs - ov) - 1) / (cs - ov)) := by
  have hd : 0 < cs - ov := by omega
  have hlp : 0 < text.length := List.length_pos.mpr hne
  have hK1 : 1 ≤ (text.length + (cs - ov) - 1) / (cs - ov) := by
    have := (@lt_ceil_div_iff (cs - ov) 0 text.length hd).mpr (by omega)
    omega
  refine ⟨?_, hK1, ?_⟩
  · have hKlen : (text.length + (cs - ov) - 1) / (cs - ov) ≤ text.length := by
      by_contra h
      have h2 : text.length * (cs - ov) < text.length :=
        (lt_ceil_div_iff hd).mp (by omega)
      nlinarith
    have h := chunkLoop_short text cs ov hlen hov text.length 0 [] (by omega)
    simp only [Nat.zero_mul, Nat.cast_zero, Nat.zero_add, Nat.sub_zero,
      List.nil_append] at h
    rw [chunk_text, if_neg (by simp [List.isEmpty_iff, hne])]
    exact h
  · intro h
    have := (@lt_ceil_div_iff (cs - ov) 1 text.length hd).mpr (by omega)
    omega

theorem chunk_text_short_text_witness :
    chunk_text "abcdefgh".toList 10 4 =
      some ((List.range ((("abcdefgh".toList).length + (10 - 4) - 1) / (10 - 4))).map
        (fun i => pyStrip (("abcdefgh".toList).drop (i * (10 - 4))))) ∧
    1 ≤ (("abcdefgh".toList).length + (10 - 4) - 1) / (10 - 4) ∧
    (10 - 4 < ("abcdefgh".toList).length →
      2 ≤ (("abcdefgh".toList).length + (10 - 4) - 1) / (10 - 4)) :=
  chunk_text_short_text "abcdefgh".toList 10 4 (by decide) (by decide) (by decide)

theorem receive_of_eq_cons {P : Type} (name : String) (b : Bus P)
    (m : Envelope P) (rest : List (Envelope P)) (h : b name = m :: rest) :
    receive_mcp_message name b = (some m, fun r => if r = name then rest else b r) := by
  unfold receive_mcp_message
  rw [h]

theorem receive_of_eq_nil {P : Type} (name : String) (b : Bus P)
    (h : b name = []) : receive_mcp_message name b = (none, b) := by
  unfold receive_mcp_message
  rw [h]

/-- C7: the message bus delivers FIFO per receiver: with `R`'s queue
initially empty, after sending `e1`, `e2`, `e3` to `R`, three
successive `receive_mcp_message "R"` calls pop exactly `e1`, `e2`, `e3`
in that order, and a fourth call returns nothing. -/
theorem mcp_fifo_delivery (P : Type) (b : Bus P) (R : String)
    (e1 e2 e3 : Envelope P) (h0 : b R = [])
    (h1 : e1.receiver = R) (h2 : e2.receiver = R) (h3 : e3.receiver = R) :
    let b3 := send_mcp_message e3 (send_mcp_message e2 (send_mcp_message e1 b))
    let p1 := receive_mcp_message R b3
    let p2 := receive_mcp_message R p1.2
    let p3 := receive_mcp_message R p2.2
    let p4 := receive_mcp_message R p3.2
    p1.1 = some e1 ∧ p2.1 = some e2 ∧ p3.1 = some e3 ∧ p4.1 = none := by
  intro b3 p1 p2 p3 p4
  have hb3 : b3 R = [e1, e2, e3] := by
    simp only [b3, send_mcp_message, h1, h2, h3, if_pos rfl, h0]
    rfl
  have hp1 := receive_of_eq_cons R b3 e1 [e2, e3] hb3
  have hq1 : p1.2 R = [e2, e3] := by rw [show p1 = _ from hp1]; simp
  have hp2 := receive_of_eq_cons R p1.2 e2 [e3] hq1
  have hq2 : p2.2 R = [e3] := by rw [show p2 = _ from hp2]; simp
  have hp3 := receive_of_eq_cons R p2.2 e3 [] hq2
  have hq3 : p3.2 R = [] := by rw [show p3 = _ from hp3]; simp
  have hp4 := receive_of_eq_nil R p3.2 hq3
  exact ⟨by rw [show p1 = _ from hp1], by rw [show p2 = _ from hp2],
    by rw [show p3 = _ from hp3], by rw [show p4 = _ from hp4]⟩

theorem mcp_fifo_delivery_witness :
    let b3 := send_mcp_message (⟨"s3", "R", 3⟩ : Envelope Nat)
      (send_mcp_message ⟨"s2", "R", 2⟩ (send_mcp_message ⟨"s1", "R", 1⟩ (emptyBus Nat)))
    let p1 := receive_mcp_message "R" b3
    let p2 := receive_mcp_message "R" p1.2
    let p3 := receive_mcp_message "R" p2.2
    let p4 := receive_mcp_message "R" p3.2
    p1.1 = some ⟨"s1", "R", 1⟩ ∧ p2.1 = some ⟨"s2", "R", 2⟩ ∧
      p3.1 = some ⟨"s3", "R", 3⟩ ∧ p4.1 = none :=
  mcp_fifo_delivery Nat (emptyBus Nat) "R" ⟨"s1", "R", 1⟩ ⟨"s2", "R", 2⟩ ⟨"s3", "R", 3⟩
    rfl rfl rfl rfl

/-- A successful `store_embeddings` call appends `chunks.length`
entries to each of the three parallel collections. -/
theorem store_embeddings_growth (embed : String → List ℚ) (chunks : List String)
    (doc : String) (st : VState) (d : Disk)
    (hs : (store_embeddings embed chunks doc st d).2 = true) :
    (store_embeddings embed chunks doc st d).1.1.stored_chunks.length
        = st.stored_chunks.length + chunks.length ∧
      (store_embeddings embed chunks doc st d).1.1.document_mapping.length
        = st.document_mapping.length + chunks.length ∧
      (store_embeddings embed chunks doc st d).1.1.index.vecs.length
        = st.index.vecs.length + chunks.length := by
  simp only [store_embeddings] at hs ⊢
  split_ifs at hs ⊢ with h1 h2
  · refine ⟨?_, ?_, ?_⟩ <;> simp

/-- C1: every state of the vector store reachable through its own
operations keeps the three parallel collections at the same length, and
a successful `store_embeddings` of N chunks grows all three by exactly
N in a single transaction, so `get_vector_store_stats` reports a total
larger by exactly N. -/
theorem vector_store_parallel_invariant (embed : String → List ℚ) :
    (∀ st, Reachable embed st → Inv st) ∧
    (∀ st d chunks doc, Reachable embed st →
      (store_embeddings embed chunks doc st d).2 = true →
      (store_embeddings embed chunks doc st d).1.1.stored_chunks.length
          = st.stored_chunks.length + chunks.length ∧
        (store_embeddings embed chunks doc st d).1.1.document_mapping.length
          = st.document_mapping.length + chunks.length ∧
        (store_embeddings embed chunks doc st d).1.1.index.vecs.length
          = st.index.vecs.length + chunks.length ∧
        (get_vector_store_stats (store_embeddings embed chunks doc st d).1.1).total_chunks
          = (get_vector_store_stats st).total_chunks + chunks.length) := by
  constructor
  · intro st h
    induction h with
    | fresh => exact ⟨rfl, rfl⟩
    | store st d chunks doc _ ih =>
      simp only [store_embeddings]
      split_ifs with h1 h2
      · exact ih
      · exact ⟨by simp [ih.1], by simp [ih.2]⟩
      · exact ih
    | clear st d _ _ => exact ⟨rfl, rfl⟩
    | reload st d _ ih => exact ih
  · intro st d chunks doc _ hs
    obtain ⟨g1, g2, g3⟩ := store_embeddings_growth embed chunks doc st d hs
    exact ⟨g1, g2, g3, g1⟩

set_option maxRecDepth 8192 in
theorem vector_store_parallel_invariant_witness :
    Inv ⟨freshIndex, [], []⟩ ∧
    (store_embeddings (fun _ => List.replicate 384 0) ["c1", "c2"] "doc.txt"
          ⟨freshIndex, [], []⟩ ⟨none, none⟩).1.1.stored_chunks.length
        = (⟨freshIndex, [], []⟩ : VState).stored_chunks.length + 2 ∧
    (get_vector_store_stats (store_embeddings (fun _ => List.replicate 384 0)
          ["c1", "c2"] "doc.txt" ⟨freshIndex, [], []⟩ ⟨none, none⟩).1.1).total_chunks
        = (get_vector_store_stats ⟨freshIndex, [], []⟩).total_chunks + 2 := by
  have h := vector_store_parallel_invariant (fun _ => List.replicate 384 0)
  have hsucc : (store_embeddings (fun _ => List.replicate 384 0) ["c1", "c2"] "doc.txt"
      ⟨freshIndex, [], []⟩ ⟨none, none⟩).2 = true := by decide
  have h2 := h.2 ⟨freshIndex, [], []⟩ ⟨none, none⟩ ["c1", "c2"] "doc.txt"
    Reachable.fresh hsucc
  exact ⟨h.1 ⟨freshIndex, [], []⟩ Reachable.fresh, h2.1, h2.2.2.2⟩

theorem searchLe_total (vecs : List (List ℚ)) (q : List ℚ) :
    ∀ i j, searchLe vecs q i j ∨ searchLe vecs q j i := by
  intro i j
  rcases lt_trichotomy (sqDist q (vecs.getD i [])) (sqDist q (vecs.getD j [])) with h | h | h
  · exact Or.inl (Or.inl h)
  · rcases le_total i j with hij | hij
    · exact Or.inl (Or.inr ⟨h, hij⟩)
    · exact Or.inr (Or.inr ⟨h.symm, hij⟩)
  · exact Or.inr (Or.inl h)

theorem searchLe_trans (vecs : List (List ℚ)) (q : List ℚ) :
    ∀ i j k, searchLe vecs q i j → searchLe vecs q j k → searchLe vecs q i k := by
  intro i j k h1 h2
  rcases h1 with h1 | ⟨e1, l1⟩ <;> rcases h2 with h2 | ⟨e2, l2⟩
  · exact Or.inl (h1.trans h2)
  · exact Or.inl (lt_of_lt_of_le h1 (le_of_eq e2))
  · exact Or.inl (lt_of_le_of_lt (le_of_eq e1) h2)
  · exact Or.inr ⟨e1.trans e2, l1.trans l2⟩

theorem filterMap_if_lt {β : Type} (n : Nat) (f : Nat → β) :
    ∀ l : List Nat, (∀ i ∈ l, i < n) →
      l.filterMap (fun i => if i < n then some (f i) else none) = l.map f := by
  intro l
  induction l with
  | nil => intro _; rfl
  | cons a t ih =>
    intro h
    rw [@List.filterMap_cons_some _ _ (fun i => if i < n then some (f i) else none) a t (f a)
        (if_pos (h a (List.mem_cons_self a t))),
      List.map_cons, ih (fun i hi => h i (List.mem_cons_of_mem a hi))]

/-- C6 (spec-modelled FAISS search): with the parallel-array invariant,
`retrieve_chunks` on an empty store returns `[]` without error, and
otherwise returns exactly `min(k, total_indexed)` `(chunk, document)`
pairs drawn from stored ids that are strictly ordered by ascending
squared Euclidean distance to the query, ties broken by insertion order
(earlier-inserted first). -/
theorem retrieve_chunks_search_spec (st : VState) (q : List ℚ) (k : Nat)
    (hinv : Inv st) (_hk : 1 ≤ k) :
    (st.stored_chunks.length = 0 → retrieve_chunks st q k = []) ∧
    ∃ ids : List Nat,
      retrieve_chunks st q k =
        ids.map (fun i => (st.stored_chunks.getD i "", st.document_mapping.getD i "")) ∧
      ids.length = min k st.stored_chunks.length ∧
      (∀ i ∈ ids, i < st.index.vecs.length) ∧
      ids.Pairwise (fun i j =>
        sqDist q (st.index.vecs.getD i []) < sqDist q (st.index.vecs.getD j []) ∨
          (sqDist q (st.index.vecs.getD i []) = sqDist q (st.index.vecs.getD j []) ∧ i < j)) := by
  by_cases hn : st.stored_chunks.length = 0
  · refine ⟨fun _ => by rw [retrieve_chunks, if_pos hn], [], ?_, ?_, ?_, ?_⟩
    · rw [retrieve_chunks, if_pos hn]; rfl
    · simp [hn]
    · simp
    · exact List.Pairwise.nil
  · have hcl : st.stored_chunks.length = st.index.vecs.length := hinv.2
    haveI : IsTotal Nat (searchLe st.index.vecs q) := ⟨searchLe_total _ _⟩
    haveI : IsTrans Nat (searchLe st.index.vecs q) := ⟨searchLe_trans _ _⟩
    have sorted : List.Sorted (searchLe st.index.vecs q)
        ((List.range st.index.vecs.length).insertionSort (searchLe st.index.vecs q)) :=
      List.sorted_insertionSort _ _
    have nodup : ((List.range st.index.vecs.length).insertionSort
        (searchLe st.index.vecs q)).Nodup :=
      (List.perm_insertionSort _ _).nodup_iff.mpr (List.nodup_range _)
    have hmem : ∀ i ∈ (List.range st.index.vecs.length).insertionSort
        (searchLe st.index.vecs q), i < st.index.vecs.length :=
      fun i hi => List.mem_range.mp ((List.perm_insertionSort _ _).mem_iff.mp hi)
    refine ⟨fun h => absurd h hn,
      faissSearch st.index.vecs q (min k st.stored_chunks.length), ?_, ?_, ?_, ?_⟩
    · rw [retrieve_chunks, if_neg hn]
      apply filterMap_if_lt
      intro i hi
      rw [hcl]
      exact hmem i ((List.take_sublist _ _).mem hi)
    · rw [faissSearch, List.length_take, List.length_insertionSort, List.length_range]
      omega
    · intro i hi
      exact hmem i ((List.take_sublist _ _).mem hi)
    · refine List.Pairwise.sublist (List.take_sublist _ _) ?_
      refine (sorted.and nodup).imp ?_
      rintro a b ⟨hr | ⟨he, hle⟩, hne⟩
      · exact Or.inl hr
      · exact Or.inr ⟨he, lt_of_le_of_ne hle hne⟩

theorem retrieve_chunks_search_spec_witness :
    ((⟨⟨1, [[1], [5]]⟩, ["a", "b"], ["x", "y"]⟩ : VState).stored_chunks.length = 0 →
      retrieve_chunks ⟨⟨1, [[1], [5]]⟩, ["a", "b"], ["x", "y"]⟩ [2] 5 = []) ∧
    ∃ ids : List Nat,
      retrieve_chunks ⟨⟨1, [[1], [5]]⟩, ["a", "b"], ["x", "y"]⟩ [2] 5 =
        ids.map (fun i =>
          ((⟨⟨1, [[1], [5]]⟩, ["a", "b"], ["x", "y"]⟩ : VState).stored_chunks.getD i "",
           (⟨⟨1, [[1], [5]]⟩, ["a", "b"], ["x", "y"]⟩ : VState).document_mapping.getD i "")) ∧
      ids.length = min 5 (⟨⟨1, [[1], [5]]⟩, ["a", "b"], ["x", "y"]⟩ : VState).stored_chunks.length ∧
      (∀ i ∈ ids, i < (⟨⟨1, [[1], [5]]⟩, ["a", "b"], ["x", "y"]⟩ : VState).index.vecs.length) ∧
      ids.Pairwise (fun i j =>
        sqDist [2] ((⟨⟨1, [[1], [5]]⟩, ["a", "b"], ["x", "y"]⟩ : VState).index.vecs.getD i []) <
            sqDist [2] ((⟨⟨1, [[1], [5]]⟩, ["a", "b"], ["x", "y"]⟩ : VState).index.vecs.getD j []) ∨
          (sqDist [2] ((⟨⟨1, [[1], [5]]⟩, ["a", "b"], ["x", "y"]⟩ : VState).index.vecs.getD i []) =
              sqDist [2] ((⟨⟨1, [[1], [5]]⟩, ["a", "b"], ["x", "y"]⟩ : VState).index.vecs.getD j []) ∧
            i < j)) :=
  retrieve_chunks_search_spec ⟨⟨1, [[1], [5]]⟩, ["a", "b"], ["x", "y"]⟩ [2] 5
    ⟨rfl, rfl⟩ (by omega)

/-- The function `rfindL` returns `-1` exactly when the character is absent, and
otherwise the index of its last occurrence. -/
theorem rfindL_spec (c : Char) (l : List Char) :
    (rfindL c l = -1 ∧ ∀ i, l.get? i ≠ some c) ∨
    (∃ b : Nat, rfindL c l = b ∧ l.get? b = some c ∧
      ∀ j, b < j → l.get? j ≠ some c) := by
  induction l with
  | nil => exact Or.inl ⟨rfl, fun i => by simp⟩
  | cons a t ih =>
    rcases ih with ⟨h1, h2⟩ | ⟨b, hb, hbc, hba⟩
    · by_cases hac : a = c
      · refine Or.inr ⟨0, ?_, by simp [hac], ?_⟩
        · rw [rfindL, h1]
          simp [hac]
        · intro j hj
          match j, hj with
          | j + 1, _ => simpa using h2 j
      · refine Or.inl ⟨?_, ?_⟩
        · rw [rfindL, h1]
          simp [hac]
        · intro i
          match i with
          | 0 => simp [hac]
          | i + 1 => simpa using h2 i
    · have hbnn : (0 : Int) ≤ (b : Int) := Int.natCast_nonneg b
      refine Or.inr ⟨b + 1, ?_, by simpa using hbc, ?_⟩
      · rw [rfindL, hb, if_pos hbnn]
        push_cast
        ring
      · intro j hj
        match j, hj with
        | j + 1, hj => exact fun hc => hba j (by omega) (by simpa using hc)

/-- The break-acceptance threshold is positive. -/
theorem thr_pos (cs : Nat) : (0 : Int) < thr cs := by
  unfold thr
  omega

/-- If no break character occurs in `w`, every one of the three
`rfind`s returns `-1`. -/
theorem rfindL_eq_neg_one (w : List Char) (c : Char)
    (hc : c = '.' ∨ c = '\n' ∨ c = ' ')
    (h : ∀ i, i < w.length → isBnd w i = false) : rfindL c w = -1 := by
  rcases rfindL_spec c w with ⟨h1, _⟩ | ⟨b, hb, hbc, _⟩
  · exact h1
  · exfalso
    have hlt : b < w.length := by
      rcases List.get?_eq_some.mp hbc with ⟨hl, _⟩
      exact hl
    have : isBnd w b = true := by
      unfold isBnd
      rw [hbc]
      rcases hc with rfl | rfl | rfl <;> simp
    rw [h b hlt] at this
    exact Bool.noConfusion this

/-- If `b` is the rightmost break character of `w`, then `rfindL c w ≤ b`
for each of the three break characters `c`. -/
theorem rfindL_le_rightmost (w : List Char) (c : Char) (b : Nat)
    (hc : c = '.' ∨ c = '\n' ∨ c = ' ')
    (hmax : ∀ j, j < w.length → b < j → isBnd w j = false) :
    rfindL c w ≤ (b : Int) := by
  rcases rfindL_spec c w with ⟨h1, _⟩ | ⟨b', hb', hbc', _⟩
  · rw [h1]; omega
  · rw [hb']
    have hlt : b' < w.length := by
      rcases List.get?_eq_some.mp hbc' with ⟨hl, _⟩
      exact hl
    by_contra hgt
    have hbb : b < b' := by omega
    have : isBnd w b' = true := by
      unfold isBnd
      rw [hbc']
      rcases hc with rfl | rfl | rfl <;> simp
    rw [hmax b' hlt hbb] at this
    exact Bool.noConfusion this

/-- If `w.get? b` is the break character `c`, then `rfindL c w ≥ b`. -/
theorem rfindL_ge_occurrence (w : List Char) (c : Char) (b : Nat)
    (hbc : w.get? b = some c) : (b : Int) ≤ rfindL c w := by
  rcases rfindL_spec c w with ⟨_, h2⟩ | ⟨b', hb', _, hba'⟩
  · exact absurd hbc (h2 b)
  · rw [hb']
    by_contra hgt
    exact hba' b (by omega) hbc

/-- Python slice `w[:m]` for `m ≥ 0` is `take m`. -/
theorem pySlice_zero_take (w : List Char) (m : Nat) :
    pySlice w 0 (m : Int) = w.take m := by
  have h1 : ¬ (0 : Int) < 0 := by omega
  have h2 : ¬ (m : Int) < 0 := by omega
  have h3 : min (0 : Int) (w.length : Int) = (0 : Int) := by omega
  simp only [pySlice, if_neg h1, if_neg h2, h3, Int.toNat_zero, List.drop_zero]
  rcases le_or_lt (m : Int) (w.length : Int) with h | h
  · rw [min_eq_left h, Int.toNat_natCast]
  · rw [min_eq_right h.le, Int.toNat_natCast, List.take_length,
      List.take_of_length_le (by exact_mod_cast h.le)]

/-- C5 (amended): when the window does not reach the text end,
`chunk_text` chooses as break point the *rightmost occurrence of any*
of `'.'`, newline or space in the window (the maximum of the three
last-occurrence positions — not a kind-priority choice), and accepts it
exactly when it is *strictly* greater than the binary64 product
`chunk_size * 0.7`, i.e. at or past `⌊chunk_size*0.7⌋ + 1 = thr cs`
(351 for the default `chunk_size = 500`); otherwise, and when no break
character occurs at all, the full window is kept. -/
theorem chunkStep_break_choice (text : List Char) (cs ov : Nat) (start : Int)
    (hw : start + (cs : Int) < text.length) :
    ((∀ i, i < (pySlice text start (start + cs)).length →
        isBnd (pySlice text start (start + cs)) i = false) →
      (chunkStep text cs ov start).1 = pyStrip (pySlice text start (start + cs))) ∧
    (∀ b : Nat, isBnd (pySlice text start (start + cs)) b = true →
      (∀ j, j < (pySlice text start (start + cs)).length → b < j →
        isBnd (pySlice text start (start + cs)) j = false) →
      (chunkStep text cs ov start).1 =
        if thr cs ≤ (b : Int) then
          pyStrip ((pySlice text start (start + cs)).take (b + 1))
        else pyStrip (pySlice text start (start + cs))) := by
  constructor
  · intro hnone
    have h1 := rfindL_eq_neg_one _ '.' (Or.inl rfl) hnone
    have h2 := rfindL_eq_neg_one _ '\n' (Or.inr (Or.inl rfl)) hnone
    have h3 := rfindL_eq_neg_one _ ' ' (Or.inr (Or.inr rfl)) hnone
    have hthr := thr_pos cs
    rw [chunkStep]
    rw [if_pos hw]
    rw [h1, h2, h3]
    rw [if_neg (by omega)]
  · intro b hb hmax
    obtain ⟨c, hgc, hcb⟩ : ∃ c, (pySlice text start (start + cs)).get? b = some c ∧
        (c = '.' ∨ c = '\n' ∨ c = ' ') := by
      unfold isBnd at hb
      rcases hget : (pySlice text start (start + cs)).get? b with - | c
      · rw [hget] at hb; exact Bool.noConfusion hb
      · rw [hget] at hb
        refine ⟨c, rfl, ?_⟩
        rcases Bool.or_eq_true_iff.mp hb with h | h
        · rcases Bool.or_eq_true_iff.mp h with h | h
          · exact Or.inl (beq_iff_eq.mp h)
          · exact Or.inr (Or.inl (beq_iff_eq.mp h))
        · exact Or.inr (Or.inr (beq_iff_eq.mp h))
    have hup : max (rfindL '.' (pySlice text start (start + cs)))
        (max (rfindL '\n' (pySlice text start (start + cs)))
          (rfindL ' ' (pySlice text start (start + cs)))) ≤ (b : Int) :=
      max_le (rfindL_le_rightmost _ _ b (Or.inl rfl) hmax)
        (max_le (rfindL_le_rightmost _ _ b (Or.inr (Or.inl rfl)) hmax)
          (rfindL_le_rightmost _ _ b (Or.inr (Or.inr rfl)) hmax))
    have hlow : (b : Int) ≤ max (rfindL '.' (pySlice text start (start + cs)))
        (max (rfindL '\n' (pySlice text start (start + cs)))
          (rfindL ' ' (pySlice text start (start + cs)))) := by
      rcases hcb with rfl | rfl | rfl
      · exact le_max_of_le_left (rfindL_ge_occurrence _ _ b hgc)
      · exact le_max_of_le_right (le_max_of_le_left (rfindL_ge_occurrence _ _ b hgc))
      · exact le_max_of_le_right (le_max_of_le_right (rfindL_ge_occurrence _ _ b hgc))
    have hbp : max (rfindL '.' (pySlice text start (start + cs)))
        (max (rfindL '\n' (pySlice text start (start + cs)))
          (rfindL ' ' (pySlice text start (start + cs)))) = (b : Int) :=
      le_antisymm hup hlow
    rw [chunkStep]
    rw [if_pos hw]
    rw [hbp]
    by_cases hacc : thr cs ≤ (b : Int)
    · rw [if_pos hacc, if_pos hacc]
      show pyStrip (pySlice (pySlice text start (start + (cs : Int))) 0 ((b : Int) + 1)) =
        pyStrip ((pySlice text start (start + (cs : Int))).take (b + 1))
      congr 1
      have : ((b : Int) + 1) = ((b + 1 : Nat) : Int) := by push_cast; ring
      rw [this]
      exact pySlice_zero_take _ _
    · rw [if_neg hacc, if_neg hacc]

theorem chunkStep_break_choice_witness :
    (chunkStep "a. cdefg hij klmno".toList 10 2 0).1 =
      if thr 10 ≤ ((8 : Nat) : Int) then
        pyStrip ((pySlice "a. cdefg hij klmno".toList 0 (0 + ((10 : Nat) : Int))).take (8 + 1))
      else pyStrip (pySlice "a. cdefg hij klmno".toList 0 (0 + ((10 : Nat) : Int))) :=
  (chunkStep_break_choice "a. cdefg hij klmno".toList 10 2 0 (by decide)).2 8
    (by decide) (by decide)

/-- C5 counterexample: on the window `"a. cdefg h"` (`chunk_size = 10`)
the code's break point is the *space* at index 8 (the maximum of the
three rfinds), accepted since `8 > 7.0`, giving chunk `"a. cdefg"`; the
claimed kind-priority rule would pick the *period* at index 1, reject
it (1 is before 70% of 10), and keep the whole window `"a. cdefg h"`. -/
theorem chunkStep_priority_counterexample :
    (chunkStep "a. cdefg hij klmno".toList 10 2 0).1 = "a. cdefg".toList ∧
    (claimChunkStep "a. cdefg hij klmno".toList 10 2 0).1 = "a. cdefg h".toList ∧
    (chunkStep "a. cdefg hij klmno".toList 10 2 0).1 ≠
      (claimChunkStep "a. cdefg hij klmno".toList 10 2 0).1 := by
  refine ⟨?_, ?_, ?_⟩ <;> decide

end RAG
